import Mathlib

/-!
Verification of `portfolio_notify.py` (stock_app repository).

This file gives a shallow embedding, in Lean 4, of the valuation pipeline of
`portfolio_notify.py`: the `Row` / `Holding` / monthly-dataset data model,
`build_rows`, the report totals, the HTML renderer row loop, the monthly
dataset builder, the CSV serializer, the rate limiter, the exit-code mapping
of `main`, and the two sorting routines (the Python-side sort in `main` and
the client-side table sort embedded in the HTML).

Modelling conventions:
  * Python floats are modelled by `EFloat`: either the not-a-number sentinel
    `nan` or a finite rational `fin q`.  All arithmetic propagates `nan`
    exactly as IEEE NaN propagates through `+`, `-`, `*`, `/`; finite
    arithmetic is exact rational arithmetic (the claims under study are
    about NaN propagation and algebraic identities, not rounding).
    Infinities never arise on the modelled code paths.
  * Fallible Python code (raising exceptions) is modelled with
    `Except PyErr`.
  * Python dicts built from association lists are modelled by lookup in the
    reversed list (later bindings win).
-/

set_option maxHeartbeats 1000000

/-- Python float values as used by the program: the not-a-number sentinel or a
finite rational. -/
inductive EFloat where
  | nan : EFloat
  | fin (q : ℚ) : EFloat
deriving DecidableEq, Inhabited

namespace EFloat

/-- Addition with NaN propagation (Python `+` on floats). -/
def add : EFloat → EFloat → EFloat
  | fin a, fin b => fin (a + b)
  | _, _ => nan

/-- Subtraction with NaN propagation. -/
def sub : EFloat → EFloat → EFloat
  | fin a, fin b => fin (a - b)
  | _, _ => nan

/-- Multiplication with NaN propagation (Python `*` on floats). -/
def mul : EFloat → EFloat → EFloat
  | fin a, fin b => fin (a * b)
  | _, _ => nan

/-- Division with NaN propagation.  Every division site in the source guards
against a zero divisor, so the rational convention `a / 0 = 0` is never
exercised. -/
def div : EFloat → EFloat → EFloat
  | fin a, fin b => fin (a / b)
  | _, _ => nan

instance : Add EFloat := ⟨add⟩
instance : Sub EFloat := ⟨sub⟩
instance : Mul EFloat := ⟨mul⟩
instance : Div EFloat := ⟨div⟩

/-- The Python test `v != v`, true exactly for NaN. -/
def isNan : EFloat → Bool
  | nan => true
  | fin _ => false

@[simp] theorem add_nan (x : EFloat) : x + nan = nan := by cases x <;> rfl

@[simp] theorem nan_add (x : EFloat) : nan + x = nan := rfl

@[simp] theorem fin_add_fin (a b : ℚ) : (fin a) + (fin b) = fin (a + b) := rfl

@[simp] theorem mul_nan (x : EFloat) : x * nan = nan := by cases x <;> rfl

@[simp] theorem nan_mul (x : EFloat) : nan * x = nan := rfl

@[simp] theorem fin_mul_fin (a b : ℚ) : (fin a) * (fin b) = fin (a * b) := rfl

@[simp] theorem sub_nan (x : EFloat) : x - nan = nan := by cases x <;> rfl

@[simp] theorem nan_sub (x : EFloat) : nan - x = nan := rfl

@[simp] theorem fin_sub_fin (a b : ℚ) : (fin a) - (fin b) = fin (a - b) := rfl

@[simp] theorem div_nan (x : EFloat) : x / nan = nan := by cases x <;> rfl

@[simp] theorem nan_div (x : EFloat) : nan / x = nan := rfl

@[simp] theorem fin_div_fin (a b : ℚ) : (fin a) / (fin b) = fin (a / b) := rfl

end EFloat

/-- Python `str.upper()` restricted to what the program feeds it (ASCII
currency codes).  Defined on the character list so that it evaluates by
kernel reduction. -/
def pyUpper (s : String) : String := ⟨s.data.map Char.toUpper⟩

/-- `Holding` dataclass: symbol, share count, optional currency code. -/
structure Holding where
  symbol : String
  shares : ℚ
  currency : Option String
deriving DecidableEq, Inhabited

/-- `(h.currency or "USD").upper()`: a missing or empty (falsy) currency
defaults to "USD"; otherwise the stored code is upper-cased. -/
def pyCcy (h : Holding) : String :=
  match h.currency with
  | none => "USD"
  | some s => if s = "" then "USD" else pyUpper s

/-- `Row` dataclass: the per-holding valuation row produced by `build_rows`. -/
structure Row where
  symbol : String
  shares : ℚ
  currency : String
  usd_price : EFloat
  usd_value : EFloat
  jpy_price : EFloat
  jpy_value : EFloat
  per : EFloat
  usd_mom : EFloat
  usd_dod : EFloat
  jpy_mom : EFloat
  jpy_dod : EFloat
  usd_yoy : EFloat
  jpy_yoy : EFloat
  company_name : Option String
deriving DecidableEq, Inhabited

/-- Python exceptions surfacing in the modelled code paths. -/
inductive PyErr where
  | valueError (msg : String)
  | runtimeError (msg : String)
  | nameError (name : String)
  | keyboardInterrupt
deriving DecidableEq, Inhabited

/-- Abstract view of the yfinance provider capabilities used by `build_rows`:
previous closes at day/month/year granularity, issuer name, valuation
multiple.  A `none` result models both "no data" and a swallowed exception
(the callers wrap every call in try/except returning None). -/
structure ProviderM where
  prevDay : String → Option ℚ
  prevMonth : String → Option ℚ
  prevYear : String → Option ℚ
  getName : String → Option String
  getPer : String → Option ℚ

/-- The local `pct(cur, prev)` helper of `build_rows`: percentage change
`(cur - prev) / prev`, with NaN when `prev` is None or zero or either side is
NaN. -/
def pct (cur : EFloat) (prev : Option ℚ) : EFloat :=
  match prev with
  | none => .nan
  | some p =>
    if p = 0 then .nan
    else
      match cur with
      | .nan => .nan
      | .fin c => .fin ((c - p) / p)

/-- `None if (pu is None or fx in (None, 0)) else pu * fx` — conversion of a
previous close into the counterpart currency by multiplication with the
contemporaneous FX rate. -/
def convMul (pu fx : Option ℚ) : Option ℚ :=
  match pu, fx with
  | some a, some f => if f = 0 then none else some (a * f)
  | _, _ => none

/-- `None if (pj is None or fx in (None, 0)) else pj / fx`. -/
def convDiv (pj fx : Option ℚ) : Option ℚ :=
  match pj, fx with
  | some a, some f => if f = 0 then none else some (a / f)
  | _, _ => none

/-- The previous close of a holding in both currencies at one granularity
(`get` selects day, month or year).  For a USD holding the native previous
close is converted to JPY by multiplication with the contemporaneous
previous FX rate; for a JPY-native holding, by division.  When the provider
is not the yfinance variant (`prov = none`) no history is available and both
sides are `none` (in the source the change fields then simply stay NaN,
which coincides with `pct _ none = nan`). -/
def prevPair (get : ProviderM → String → Option ℚ) (prov : Option ProviderM)
    (ccy : String) (fx : Option ℚ) (sym : String) : Option ℚ × Option ℚ :=
  match prov with
  | none => (none, none)
  | some p =>
    if ccy = "USD" then (get p sym, convMul (get p sym) fx)
    else (convDiv (get p sym) fx, get p sym)

/-- The body of the per-holding loop of `build_rows` (portfolio_notify.py
lines 960-1040): price lookup with NaN default, currency normalisation,
FX conversion (`jpy_price = price * (usd_jpy or nan)` for USD holdings,
`usd_price = nan if usd_jpy in (None, 0) else price / usd_jpy` for JPY
holdings), `value = shares * price` in both currencies, and the optional
enrichment fields (previous-close change percentages, name, PER) when the
provider is the yfinance variant (`prov = some p`). -/
def rowFor (prov : Option ProviderM) (prices : String → Option ℚ)
    (usdJpy : Option ℚ) (fxD fxM fxY : Option ℚ) (h : Holding) : Row :=
  let price : EFloat := match prices h.symbol with
    | none => .nan
    | some q => .fin q
  let ccy := pyCcy h
  let usd_price : EFloat :=
    if ccy = "USD" then price
    else match usdJpy with
      | none => .nan
      | some q => if q = 0 then .nan else price / .fin q
  let jpy_price : EFloat :=
    if ccy = "USD" then
      price * (match usdJpy with
        | none => .nan
        | some q => if q = 0 then .nan else .fin q)
    else price
  { symbol := h.symbol
    shares := h.shares
    currency := ccy
    usd_price := usd_price
    usd_value := .fin h.shares * usd_price
    jpy_price := jpy_price
    jpy_value := .fin h.shares * jpy_price
    per := match prov.bind fun p => p.getPer h.symbol with
      | none => .nan
      | some q => .fin q
    usd_mom := pct usd_price (prevPair ProviderM.prevMonth prov ccy fxM h.symbol).1
    usd_dod := pct usd_price (prevPair ProviderM.prevDay prov ccy fxD h.symbol).1
    jpy_mom := pct jpy_price (prevPair ProviderM.prevMonth prov ccy fxM h.symbol).2
    jpy_dod := pct jpy_price (prevPair ProviderM.prevDay prov ccy fxD h.symbol).2
    usd_yoy := pct usd_price (prevPair ProviderM.prevYear prov ccy fxY h.symbol).1
    jpy_yoy := pct jpy_price (prevPair ProviderM.prevYear prov ccy fxY h.symbol).2
    company_name := prov.bind fun p => p.getName h.symbol }

/-- The iteration of `build_rows` over the holdings list: accumulates rows and
the running totals (`total_usd += usd_value`, `total_jpy += jpy_value` —
unguarded `+=`, so NaN values propagate into the totals), and raises
ValueError on the first holding whose upper-cased currency is neither "USD"
nor "JPY". -/
def buildRowsAux (prov : Option ProviderM) (prices : String → Option ℚ)
    (usdJpy : Option ℚ) (fxD fxM fxY : Option ℚ) :
    List Holding → List Row → EFloat → EFloat →
    Except PyErr (List Row × EFloat × EFloat)
  | [], acc, tu, tj => .ok (acc, tu, tj)
  | h :: hs, acc, tu, tj =>
    let ccy := pyCcy h
    if ccy = "USD" ∨ ccy = "JPY" then
      let r := rowFor prov prices usdJpy fxD fxM fxY h
      buildRowsAux prov prices usdJpy fxD fxM fxY hs (acc ++ [r])
        (tu + r.usd_value) (tj + r.jpy_value)
    else
      .error (.valueError ("unsupported currency: " ++ h.symbol ++ " currency=" ++ ccy))

/-- `build_rows(holdings, prices, usd_jpy, provider)`: the FX previous closes
are fetched once up front (None when the provider lacks history), then each
holding is processed in order. -/
def buildRows (prov : Option ProviderM) (holdings : List Holding)
    (prices : String → Option ℚ) (usdJpy : Option ℚ) :
    Except PyErr (List Row × EFloat × EFloat) :=
  let fxD := prov.bind fun p => p.prevDay "USDJPY=X"
  let fxM := prov.bind fun p => p.prevMonth "USDJPY=X"
  let fxY := prov.bind fun p => p.prevYear "USDJPY=X"
  buildRowsAux prov prices usdJpy fxD fxM fxY holdings [] (.fin 0) (.fin 0)

/-- The scenario of spec section 8: two holdings, prices 150 / 3000, FX 150. -/
example :
    buildRows none [⟨"AAPL", 10, some "USD"⟩, ⟨"7203.T", 5, some "JPY"⟩]
      (fun s => if s = "AAPL" then some 150 else some 3000) (some 150)
    = .ok ([⟨"AAPL", 10, "USD", .fin 150, .fin 1500, .fin 22500, .fin 225000,
            .nan, .nan, .nan, .nan, .nan, .nan, .nan, none⟩,
           ⟨"7203.T", 5, "JPY", .fin 20, .fin 100, .fin 3000, .fin 15000,
            .nan, .nan, .nan, .nan, .nan, .nan, .nan, none⟩],
           .fin 1600, .fin 240000) := by
  have h1 : pyCcy ⟨"AAPL", 10, some "USD"⟩ = "USD" := by decide
  have h2 : pyCcy ⟨"7203.T", 5, some "JPY"⟩ = "JPY" := by decide
  have h3 : ("JPY" : String) ≠ "USD" := by decide
  have h4 : ("7203.T" : String) ≠ "AAPL" := by decide
  simp [buildRows, buildRowsAux, rowFor, prevPair, pct, h1, h2, h3, h4]
  norm_num

/-- On success, `buildRowsAux` appends one row per remaining holding (in
order) to the accumulator, and the totals are the left folds of the
unguarded `+=` over the produced row values. -/
theorem buildRowsAux_ok_eq (prov : Option ProviderM) (prices : String → Option ℚ)
    (usdJpy : Option ℚ) (fxD fxM fxY : Option ℚ) :
    ∀ (hs : List Holding) (acc : List Row) (tu tj : EFloat)
      (rows : List Row) (tu' tj' : EFloat),
      buildRowsAux prov prices usdJpy fxD fxM fxY hs acc tu tj = .ok (rows, tu', tj') →
      rows = acc ++ hs.map (rowFor prov prices usdJpy fxD fxM fxY)
        ∧ tu' = (hs.map (rowFor prov prices usdJpy fxD fxM fxY)).foldl
            (fun t r => t + r.usd_value) tu
        ∧ tj' = (hs.map (rowFor prov prices usdJpy fxD fxM fxY)).foldl
            (fun t r => t + r.jpy_value) tj := by
  intro hs
  induction hs with
  | nil =>
    intro acc tu tj rows tu' tj' h
    simp [buildRowsAux] at h
    simp [h.1, h.2.1, h.2.2]
  | cons hd tl ih =>
    intro acc tu tj rows tu' tj' h
    by_cases hc : pyCcy hd = "USD" ∨ pyCcy hd = "JPY"
    · rw [buildRowsAux, if_pos hc] at h
      obtain ⟨h1, h2, h3⟩ := ih _ _ _ _ _ _ h
      refine ⟨?_, ?_, ?_⟩
      · simp [h1]
      · simpa using h2
      · simpa using h3
    · rw [buildRowsAux, if_neg hc] at h
      exact absurd h (by simp)

/-- Bool-valued check that an `Except` result is a raised ValueError. -/
def isValueError : Except PyErr α → Bool
  | .error (.valueError _) => true
  | _ => false

/-- If any remaining holding has an unsupported currency, `buildRowsAux`
raises ValueError (returns no row list at all). -/
theorem buildRowsAux_invalid (prov : Option ProviderM) (prices : String → Option ℚ)
    (usdJpy : Option ℚ) (fxD fxM fxY : Option ℚ) :
    ∀ (hs : List Holding) (acc : List Row) (tu tj : EFloat),
      (∃ h ∈ hs, pyCcy h ≠ "USD" ∧ pyCcy h ≠ "JPY") →
      isValueError (buildRowsAux prov prices usdJpy fxD fxM fxY hs acc tu tj) = true := by
  intro hs
  induction hs with
  | nil => intro acc tu tj hex; simp at hex
  | cons hd tl ih =>
    intro acc tu tj hex
    by_cases hc : pyCcy hd = "USD" ∨ pyCcy hd = "JPY"
    · rw [buildRowsAux, if_pos hc]
      obtain ⟨h, hmem, hbad⟩ := hex
      rcases List.mem_cons.mp hmem with rfl | htl
      · rcases hc with hc | hc
        · exact absurd hc hbad.1
        · exact absurd hc hbad.2
      · exact ih _ _ _ ⟨h, htl, hbad⟩
    · rw [buildRowsAux, if_neg hc]
      rfl

/-- C10: for every holdings list on which it succeeds, `build_rows` returns
exactly one Row per input holding, in the same order as the holdings list,
and each Row's currency field is the upper-cased input currency (a missing
or empty currency defaulting to "USD"); duplicate symbols each produce their
own Row (they occupy distinct positions of the returned list). -/
theorem C10_buildRows_one_row_per_holding (prov : Option ProviderM)
    (prices : String → Option ℚ) (usdJpy : Option ℚ) (holdings : List Holding)
    (rows : List Row) (tu tj : EFloat)
    (h : buildRows prov holdings prices usdJpy = .ok (rows, tu, tj)) :
    rows.length = holdings.length ∧
    ∀ i : ℕ, rows[i]?.map (fun r => (r.symbol, r.shares, r.currency))
        = holdings[i]?.map (fun hd => (hd.symbol, hd.shares, pyCcy hd)) := by
  obtain ⟨h1, -, -⟩ :=
    buildRowsAux_ok_eq prov prices usdJpy _ _ _ holdings [] (.fin 0) (.fin 0) rows tu tj h
  simp only [List.nil_append] at h1
  subst h1
  refine ⟨List.length_map _ _, fun i => ?_⟩
  rw [List.getElem?_map]
  cases holdings[i]? with
  | none => rfl
  | some hd => rfl

/-- Concrete instance for C10: two lots of the same symbol (one with an
explicit currency, one defaulting) each produce their own row, in input
order. -/
def c10Holdings : List Holding :=
  [⟨"AAPL", 10, some "USD"⟩, ⟨"AAPL", 5, none⟩, ⟨"7203.T", 3, some "JPY"⟩]

def c10Prices : String → Option ℚ := fun s => if s = "AAPL" then some 150 else some 3000

def c10Result : List Row × EFloat × EFloat :=
  match buildRows none c10Holdings c10Prices (some 150) with
  | .ok x => x
  | .error _ => ([], .nan, .nan)

theorem C10_buildRows_one_row_per_holding_witness :
    c10Result.1.length = 3 ∧
    c10Result.1[1]?.map (fun r => (r.symbol, r.shares, r.currency))
      = some ("AAPL", 5, "USD") ∧
    c10Result.1[2]?.map (fun r => (r.symbol, r.shares, r.currency))
      = some ("7203.T", 3, "JPY") := by
  have hok : buildRows none c10Holdings c10Prices (some 150)
      = .ok (c10Result.1, c10Result.2.1, c10Result.2.2) := by
    have h1 : pyCcy ⟨"AAPL", 10, some "USD"⟩ = "USD" := by decide
    have h2 : pyCcy ⟨"AAPL", 5, none⟩ = "USD" := by decide
    have h3 : pyCcy ⟨"7203.T", 3, some "JPY"⟩ = "JPY" := by decide
    simp [c10Result, buildRows, buildRowsAux, c10Holdings, h1, h2, h3]
  have h := C10_buildRows_one_row_per_holding none c10Prices (some 150) c10Holdings
    c10Result.1 c10Result.2.1 c10Result.2.2 hok
  refine ⟨by simpa [c10Holdings] using h.1, ?_, ?_⟩
  · rw [h.2 1]; decide
  · rw [h.2 2]; decide

/-- C4: for every holdings list containing at least one holding whose
upper-cased currency is neither "USD" nor "JPY", `build_rows` raises a
ValueError and returns no row list at all, regardless of how many valid
holdings precede or follow the offending one. -/
theorem C4_unsupported_currency_aborts (prov : Option ProviderM)
    (prices : String → Option ℚ) (usdJpy : Option ℚ) (holdings : List Holding)
    (hex : ∃ h ∈ holdings, pyCcy h ≠ "USD" ∧ pyCcy h ≠ "JPY") :
    isValueError (buildRows prov holdings prices usdJpy) = true :=
  buildRowsAux_invalid prov prices usdJpy _ _ _ holdings [] (.fin 0) (.fin 0) hex

def c4Holdings : List Holding :=
  [⟨"AAPL", 10, some "USD"⟩, ⟨"SAP", 2, some "EUR"⟩, ⟨"7203.T", 3, some "JPY"⟩]

theorem C4_unsupported_currency_aborts_witness :
    isValueError (buildRows none c4Holdings (fun _ => some 100) (some 150)) = true :=
  C4_unsupported_currency_aborts none (fun _ => some 100) (some 150) c4Holdings
    ⟨⟨"SAP", 2, some "EUR"⟩, by decide, by decide, by decide⟩

/-- C3: for a holding with currency "USD" and a finite FX rate r > 0 the
produced Row satisfies `jpy_price = usd_price * r` and
`jpy_value = shares * jpy_price`; for a holding with currency "JPY",
`usd_price = jpy_price / r` when r > 0, and when the rate is unavailable
(None) or zero, `usd_price` is the NaN sentinel — in particular never the
finite value 0. -/
theorem C3_fx_conversion (prov : Option ProviderM) (prices : String → Option ℚ)
    (fxD fxM fxY : Option ℚ) (h : Holding) (r : ℚ) :
    (pyCcy h = "USD" → 0 < r →
      ((rowFor prov prices (some r) fxD fxM fxY h).jpy_price
          = (rowFor prov prices (some r) fxD fxM fxY h).usd_price * .fin r
        ∧ (rowFor prov prices (some r) fxD fxM fxY h).jpy_value
          = .fin h.shares * (rowFor prov prices (some r) fxD fxM fxY h).jpy_price))
    ∧ (pyCcy h = "JPY" →
      ((0 < r → (rowFor prov prices (some r) fxD fxM fxY h).usd_price
          = (rowFor prov prices (some r) fxD fxM fxY h).jpy_price / .fin r)
        ∧ (rowFor prov prices none fxD fxM fxY h).usd_price = .nan
        ∧ (rowFor prov prices (some 0) fxD fxM fxY h).usd_price = .nan
        ∧ (rowFor prov prices none fxD fxM fxY h).usd_price ≠ .fin 0
        ∧ (rowFor prov prices (some 0) fxD fxM fxY h).usd_price ≠ .fin 0)) := by
  constructor
  · intro hccy hr
    constructor
    · simp [rowFor, hccy, if_neg hr.ne']
    · simp [rowFor, hccy]
  · intro hccy
    have hne : ("JPY" : String) ≠ "USD" := by decide
    refine ⟨fun hr => ?_, ?_, ?_, ?_, ?_⟩
    · simp [rowFor, hccy, hne, if_neg hr.ne']
    · simp [rowFor, hccy, hne]
    · simp [rowFor, hccy, hne]
    · simp [rowFor, hccy, hne]
    · simp [rowFor, hccy, hne]

def c3HoldUsd : Holding := ⟨"AAPL", 10, some "USD"⟩

def c3HoldJpy : Holding := ⟨"7203.T", 5, some "JPY"⟩

theorem C3_fx_conversion_witness :
    ((rowFor none (fun _ => some 150) (some 150) none none none c3HoldUsd).jpy_price
      = (rowFor none (fun _ => some 150) (some 150) none none none c3HoldUsd).usd_price
          * .fin 150)
    ∧ (rowFor none (fun _ => some 3000) none none none none c3HoldJpy).usd_price = .nan := by
  constructor
  · exact ((C3_fx_conversion none (fun _ => some 150) none none none c3HoldUsd 150).1
      (by decide) (by norm_num)).1
  · exact ((C3_fx_conversion none (fun _ => some 3000) none none none c3HoldJpy 150).2
      (by decide)).2.1

/-- The running-total accumulation of `format_report` (portfolio_notify.py
lines 509-533): `total_usd += r.usd_value; total_jpy += r.jpy_value` for every
row, starting from 0.0, with no NaN guard.  The pair is exactly the
`(total_usd, total_jpy)` value that `format_report` returns alongside the
rendered text. -/
def formatReportTotals (rows : List Row) : EFloat × EFloat :=
  rows.foldl (fun acc r => (acc.1 + r.usd_value, acc.2 + r.jpy_value)) (.fin 0, .fin 0)

theorem foldl_totals_split (rows : List Row) :
    ∀ tu tj : EFloat,
      rows.foldl (fun acc r => (acc.1 + r.usd_value, acc.2 + r.jpy_value)) (tu, tj)
      = (rows.foldl (fun t r => t + r.usd_value) tu,
         rows.foldl (fun t r => t + r.jpy_value) tj) := by
  induction rows with
  | nil => intro tu tj; rfl
  | cons r rs ih => intro tu tj; simpa using ih (tu + r.usd_value) (tj + r.jpy_value)

theorem foldl_add_from_nan (l : List EFloat) : l.foldl (· + ·) .nan = .nan := by
  induction l with
  | nil => rfl
  | cons x xs ih => simpa using ih

theorem foldl_add_nan_mem :
    ∀ l : List EFloat, EFloat.nan ∈ l → ∀ acc : EFloat, l.foldl (· + ·) acc = .nan := by
  intro l
  induction l with
  | nil => intro hx; simp at hx
  | cons y ys ih =>
    intro hx acc
    rcases List.mem_cons.mp hx with rfl | hmem
    · simpa using foldl_add_from_nan ys
    · exact ih hmem _

theorem formatReportTotals_eq (rows : List Row) :
    formatReportTotals rows
      = ((rows.map (·.usd_value)).foldl (· + ·) (.fin 0),
         (rows.map (·.jpy_value)).foldl (· + ·) (.fin 0)) := by
  rw [formatReportTotals, foldl_totals_split, List.foldl_map, List.foldl_map]

/-- C2 (amended): the totals of the plain-text report and of `build_rows` are
the plain left-fold of `+=` over all row values, with NO exclusion of NaN
rows: a single NaN row value poisons the corresponding total to NaN.  (Only
the monthly view inside the HTML renderer guards its per-month totals with
`if v == v`.) -/
theorem C2_amended_totals_nan_poison (rows : List Row) :
    (formatReportTotals rows
      = ((rows.map (·.usd_value)).foldl (· + ·) (.fin 0),
         (rows.map (·.jpy_value)).foldl (· + ·) (.fin 0)))
    ∧ ((∃ r ∈ rows, r.usd_value = .nan) → (formatReportTotals rows).1 = .nan)
    ∧ ((∃ r ∈ rows, r.jpy_value = .nan) → (formatReportTotals rows).2 = .nan)
    ∧ ∀ (prov : Option ProviderM) (prices : String → Option ℚ) (usdJpy : Option ℚ)
        (holdings : List Holding) (rws : List Row) (tu tj : EFloat),
        buildRows prov holdings prices usdJpy = .ok (rws, tu, tj) →
        (tu, tj) = formatReportTotals rws := by
  refine ⟨formatReportTotals_eq rows, ?_, ?_, ?_⟩
  · rintro ⟨r, hmem, hval⟩
    rw [formatReportTotals_eq]
    exact foldl_add_nan_mem _ (List.mem_map.mpr ⟨r, hmem, hval⟩) _
  · rintro ⟨r, hmem, hval⟩
    rw [formatReportTotals_eq]
    exact foldl_add_nan_mem _ (List.mem_map.mpr ⟨r, hmem, hval⟩) _
  · intro prov prices usdJpy holdings rws tu tj h
    obtain ⟨h1, h2, h3⟩ :=
      buildRowsAux_ok_eq prov prices usdJpy _ _ _ holdings [] (.fin 0) (.fin 0) rws tu tj h
    simp only [List.nil_append] at h1
    rw [formatReportTotals, foldl_totals_split, ← h1] at *
    rw [h2, h3, h1]

def c2RowFin : Row :=
  ⟨"AAPL", 10, "USD", .fin 150, .fin 1500, .fin 22500, .fin 225000,
   .nan, .nan, .nan, .nan, .nan, .nan, .nan, none⟩

def c2RowNan : Row :=
  ⟨"MISS", 2, "USD", .nan, .nan, .nan, .nan,
   .nan, .nan, .nan, .nan, .nan, .nan, .nan, none⟩

/-- C2 counterexample: with one finite row (values 1500 USD / 225000 JPY) and
one row whose price was unavailable (NaN values), both the text-report totals
and the `build_rows` totals are NaN — not the sum of the finite row values
only, as the claim states. -/
theorem C2_counterexample_totals_poisoned :
    (formatReportTotals [c2RowFin, c2RowNan]).1 = .nan
    ∧ (formatReportTotals [c2RowFin, c2RowNan]).2 = .nan
    ∧ EFloat.nan ≠ .fin 1500 ∧ EFloat.nan ≠ .fin 225000
    ∧ (match buildRows none [⟨"AAPL", 10, some "USD"⟩, ⟨"MISS", 2, some "USD"⟩]
         (fun s => if s = "AAPL" then some 150 else none) (some 150) with
       | .ok (_, tu, _) => tu
       | .error _ => .fin 0) = .nan := by
  have h1 : pyCcy ⟨"AAPL", 10, some "USD"⟩ = "USD" := by decide
  have h2 : pyCcy ⟨"MISS", 2, some "USD"⟩ = "USD" := by decide
  have h3 : ("MISS" : String) ≠ "AAPL" := by decide
  refine ⟨?_, ?_, by decide, by decide, ?_⟩
  · simp [formatReportTotals, c2RowFin, c2RowNan]
  · simp [formatReportTotals, c2RowFin, c2RowNan]
  · simp [buildRows, buildRowsAux, rowFor, h1, h2, h3]

theorem C2_amended_totals_nan_poison_witness :
    (formatReportTotals [c2RowFin, c2RowNan]).1 = .nan :=
  (C2_amended_totals_nan_poison [c2RowFin, c2RowNan]).2.1
    ⟨c2RowNan, by simp, rfl⟩

/-- Observable row-loop state of `format_report_html` when no monthly dataset
is given (the `else` branch at lines 740-795): the overall totals and the two
per-currency row-HTML lists. -/
structure HtmlObs where
  totUsd : EFloat
  totJpy : EFloat
  jpyRows : List Row
  usdRows : List Row
deriving DecidableEq, Inhabited

/-- The per-row loop of `format_report_html` with `monthly_dataset=None`
(portfolio_notify.py lines 741-795).  The totals accumulation (lines 742-743)
and the display-string computations execute, and the nested `_pct_td` helper
is defined; but the statements that build `row_html` (lines 770-787) are dead
code trapped inside `_pct_td` after its unconditional `return`, so the
subsequent `rows_html_jpy.append(row_html)` / `rows_html_usd.append(row_html)`
(lines 788-795) read an unbound name and raise NameError on the very first
iteration. -/
def htmlRowLoop : List Row → HtmlObs → Except PyErr HtmlObs
  | [], s => .ok s
  | r :: _, s =>
    let _s1 : HtmlObs := { s with totUsd := s.totUsd + r.usd_value,
                                  totJpy := s.totJpy + r.jpy_value }
    .error (.nameError "row_html")

/-- `format_report_html(rows, usd_jpy, monthly_dataset=None,
monthly_csv_text=None)` restricted to its observable row partitioning: runs
the row loop from empty accumulators.  (For an empty row list the function
returns the surrounding HTML document with empty table bodies; the rendered
markup around the loop is not modelled since the claims concern the row
placement and totals.) -/
def formatReportHtmlNoMonthly (rows : List Row) (usdJpy : Option ℚ) :
    Except PyErr HtmlObs :=
  let _fx := usdJpy
  htmlRowLoop rows ⟨.fin 0, .fin 0, [], []⟩

/-- C1 (code bug): for every NON-empty list of rows, `format_report_html`
with `monthly_dataset=None` does not return an HTML document at all — it
raises `NameError: name 'row_html' is not defined`, because the row-HTML
construction (lines 770-787) is dead code inside the `_pct_td` helper after
its `return`, so no input row is ever placed in either table. -/
theorem C1_format_report_html_raises (rows : List Row) (usdJpy : Option ℚ)
    (hne : rows ≠ []) :
    formatReportHtmlNoMonthly rows usdJpy = .error (.nameError "row_html") := by
  cases rows with
  | nil => exact absurd rfl hne
  | cons r rs => rfl

def c1Row : Row :=
  ⟨"AAPL", 10, "USD", .fin 150, .fin 1500, .fin 22500, .fin 225000,
   .nan, .nan, .nan, .nan, .nan, .nan, .nan, none⟩

theorem C1_format_report_html_raises_witness :
    formatReportHtmlNoMonthly [c1Row] (some 150) = .error (.nameError "row_html") :=
  C1_format_report_html_raises [c1Row] (some 150) (by simp)

/-- The sort key of `main` (lines 1195-1202): the chosen value column.  The
source wraps it as `float(v)` with an `except` fallback to `float("-inf")`,
but `float()` applied to a float always succeeds — including NaN — so the
fallback is dead code and NaN keys are passed to the sort unchanged. -/
def keyWithNan (sortBy : String) (r : Row) : EFloat :=
  if sortBy = "usd" then r.usd_value else r.jpy_value

/-- Python `<` on floats: false whenever either side is NaN. -/
def efLt : EFloat → EFloat → Bool
  | .fin a, .fin b => decide (a < b)
  | _, _ => false

/-- Continuation condition of CPython `count_run`: a strictly-descending run
extends while `next < prev`; a non-descending run extends while
`not (next < prev)`. -/
def runCond (sd : Bool) (lt : α → α → Bool) (x prev : α) : Bool :=
  if sd then lt x prev else !(lt x prev)

/-- Extends the initial run of CPython `count_run` past its second element. -/
def extendRun (sd : Bool) (lt : α → α → Bool) : α → List α → List α × List α
  | prev, [] => ([prev], [])
  | prev, x :: xs =>
    if runCond sd lt x prev then
      let res := extendRun sd lt x xs
      (prev :: res.1, res.2)
    else ([prev], x :: xs)

/-- CPython `count_run` plus the reversal of a descending run: splits the
list into its maximal initial run (already put in ascending order) and the
remainder. -/
def runSplit (lt : α → α → Bool) : List α → List α × List α
  | [] => ([], [])
  | [a] => ([a], [])
  | a :: b :: rest =>
    if lt b a then
      let res := extendRun true lt b rest
      ((a :: res.1).reverse, res.2)
    else
      let res := extendRun false lt b rest
      (a :: res.1, res.2)

/-- The binary-search loop of CPython `binarysort`, with the interval width
as structural fuel so that it evaluates by kernel reduction (each iteration
shrinks the interval, so `r - l` steps always suffice). -/
def binPosGo (lt : α → α → Bool) (pivot : α) (xs : List α) :
    ℕ → ℕ → ℕ → ℕ
  | 0, l, _ => l
  | fuel + 1, l, r =>
    if l < r then
      let m := (l + r) / 2
      if lt pivot (xs.getD m pivot) then binPosGo lt pivot xs fuel l m
      else binPosGo lt pivot xs fuel (m + 1) r
    else l

/-- The binary search of CPython `binarysort`: returns the insertion index
for `pivot` within indices `[l, r)` of `xs` (bisect-right flavour: moves
right unless `pivot < xs[mid]`). -/
def binPos (lt : α → α → Bool) (pivot : α) (xs : List α) (l r : ℕ) : ℕ :=
  binPosGo lt pivot xs (r - l) l r

/-- One stable binary insertion into an already-sorted prefix. -/
def binInsert (lt : α → α → Bool) (pivot : α) (sorted : List α) : List α :=
  let p := binPos lt pivot sorted 0 sorted.length
  sorted.take p ++ pivot :: sorted.drop p

/-- The insertion loop of CPython `binarysort`. -/
def binarySortRest (lt : α → α → Bool) : List α → List α → List α
  | acc, [] => acc
  | acc, x :: xs => binarySortRest lt (binInsert lt x acc) xs

/-- CPython `list.sort` (ascending) for lists shorter than 64 elements:
`minrun` equals the length, so the sort is exactly one `count_run` (with the
descending-run reversal) followed by binary insertion of the remainder.
This is exact for every list the proofs below evaluate it on. -/
def pySortSmall (lt : α → α → Bool) (l : List α) : List α :=
  let res := runSplit lt l
  binarySortRest lt res.1 res.2

/-- CPython `list.sort(key=..., reverse=...)` on short lists: with
`reverse=True` CPython reverses the (key-decorated) list before and after an
ascending sort. -/
def pyListSort (lt : α → α → Bool) (reverse : Bool) (l : List α) : List α :=
  if reverse then (pySortSmall lt l.reverse).reverse else pySortSmall lt l

/-- The sorting step of `main` (lines 1193-1203): sort by the chosen value
column unless `--sort-by none`, descending when `--sort-order desc`. -/
def mainSortRows (sortBy sortOrder : String) (rows : List Row) : List Row :=
  if sortBy ≠ "none" then
    pyListSort (fun a b => efLt (keyWithNan sortBy a) (keyWithNan sortBy b))
      (sortOrder = "desc") rows
  else rows

theorem extendRun_length (sd : Bool) (lt : α → α → Bool) :
    ∀ (xs : List α) (prev : α),
      (extendRun sd lt prev xs).1.length + (extendRun sd lt prev xs).2.length
        = xs.length + 1 := by
  intro xs
  induction xs with
  | nil => intro prev; simp [extendRun]
  | cons x xs ih =>
    intro prev
    by_cases hc : runCond sd lt x prev = true
    · have := ih x
      simp only [extendRun, hc, if_true, List.length_cons, List.length_cons] at *
      omega
    · simp only [Bool.not_eq_true] at hc
      simp [extendRun, hc]
      omega

theorem runSplit_length (lt : α → α → Bool) (l : List α) :
    (runSplit lt l).1.length + (runSplit lt l).2.length = l.length := by
  match l with
  | [] => simp [runSplit]
  | [a] => simp [runSplit]
  | a :: b :: rest =>
    by_cases hc : lt b a = true
    · have := extendRun_length true lt rest b
      simp only [runSplit, hc, if_true, List.length_reverse, List.length_cons] at *
      omega
    · simp only [Bool.not_eq_true] at hc
      have := extendRun_length false lt rest b
      simp only [runSplit, hc, Bool.false_eq_true, if_false, List.length_cons] at *
      omega

theorem binInsert_length (lt : α → α → Bool) (x : α) (l : List α) :
    (binInsert lt x l).length = l.length + 1 := by
  simp [binInsert, List.length_take, List.length_drop]
  omega

theorem binarySortRest_length (lt : α → α → Bool) :
    ∀ (rest acc : List α), (binarySortRest lt acc rest).length
      = acc.length + rest.length := by
  intro rest
  induction rest with
  | nil => intro acc; simp [binarySortRest]
  | cons x xs ih =>
    intro acc
    rw [binarySortRest, ih, binInsert_length]
    simp
    omega

theorem pySortSmall_length (lt : α → α → Bool) (l : List α) :
    (pySortSmall lt l).length = l.length := by
  rw [pySortSmall, binarySortRest_length]
  exact runSplit_length lt l

theorem pyListSort_length (lt : α → α → Bool) (reverse : Bool) (l : List α) :
    (pyListSort lt reverse l).length = l.length := by
  by_cases h : reverse = true
  · simp [pyListSort, h, pySortSmall_length]
  · simp only [Bool.not_eq_true] at h
    simp [pyListSort, h, pySortSmall_length]

theorem mainSortRows_length (sortBy sortOrder : String) (rows : List Row) :
    (mainSortRows sortBy sortOrder rows).length = rows.length := by
  by_cases h : sortBy = "none"
  · simp [mainSortRows, h]
  · simp [mainSortRows, h, pyListSort_length]

/-- The numeric comparator of the HTML renderer's `sortTableEl` (embedded
script, lines 610-622): a cell whose value is not finite counts as NaN and
compares after every finite cell regardless of direction; otherwise the
comparator is `av - bv` for ascending and `bv - av` for descending. -/
def jsCmpNum (asc : Bool) (a b : EFloat) : ℚ :=
  match a, b with
  | .nan, .nan => 0
  | .nan, .fin _ => 1
  | .fin _, .nan => -1
  | .fin x, .fin y => if asc then x - y else y - x

/-- Stable insertion according to the comparator: a later element is placed
after every element it does not strictly precede (ECMAScript
`Array.prototype.sort` is stable and, with this consistent comparator, has a
unique result). -/
def jsInsert (asc : Bool) (x : EFloat) : List EFloat → List EFloat
  | [] => [x]
  | y :: ys => if jsCmpNum asc x y < 0 then x :: y :: ys else y :: jsInsert asc x ys

/-- The client-side sort of a numeric table column. -/
def jsSortNum (asc : Bool) (l : List EFloat) : List EFloat :=
  l.foldl (fun acc x => jsInsert asc x acc) []

def c9Row100 : Row :=
  ⟨"S100", 1, "JPY", .nan, .nan, .fin 100, .fin 100,
   .nan, .nan, .nan, .nan, .nan, .nan, .nan, none⟩

def c9RowNan : Row :=
  ⟨"SNAN", 1, "JPY", .nan, .nan, .nan, .nan,
   .nan, .nan, .nan, .nan, .nan, .nan, .nan, none⟩

def c9Row300 : Row :=
  ⟨"S300", 1, "JPY", .nan, .nan, .fin 300, .fin 300,
   .nan, .nan, .nan, .nan, .nan, .nan, .nan, none⟩

/-- C9 counterexample: sorting rows with JPY values [100, NaN, 300] in
`main` (sort-by jpy, descending) does NOT yield [300, 100, NaN].  The NaN
key reaches `list.sort` unchanged (the `-inf` fallback is dead code because
`float()` on a float never raises), every comparison against it is false, so
CPython's run detection treats the whole list as already ordered and the
rows come back in their original order [100, NaN, 300]. -/
theorem C9_counterexample_main_sort :
    mainSortRows "jpy" "desc" [c9Row100, c9RowNan, c9Row300]
      = [c9Row100, c9RowNan, c9Row300]
    ∧ [c9Row100, c9RowNan, c9Row300] ≠ [c9Row300, c9Row100, c9RowNan] := by
  constructor
  · rfl
  · decide

/-- C9 (amended): NaN-is-last sorting holds for the HTML renderer's
client-side sort, in both directions: on [100, NaN, 300] descending yields
[300, 100, NaN] and ascending yields [100, 300, NaN].  The Python-side sort
in `main` does not have this property: its NaN guard is dead code
(`keyWithNan` forwards NaN), and with CPython's sort the example list comes
back unchanged in both directions, leaving the NaN row in the middle. -/
theorem C9_amended_sorting :
    jsSortNum false [.fin 100, .nan, .fin 300] = [.fin 300, .fin 100, .nan]
    ∧ jsSortNum true [.fin 100, .nan, .fin 300] = [.fin 100, .fin 300, .nan]
    ∧ mainSortRows "jpy" "desc" [c9Row100, c9RowNan, c9Row300]
        = [c9Row100, c9RowNan, c9Row300]
    ∧ mainSortRows "jpy" "asc" [c9Row100, c9RowNan, c9Row300]
        = [c9Row100, c9RowNan, c9Row300]
    ∧ keyWithNan "jpy" c9RowNan = .nan := by
  refine ⟨?_, ?_, rfl, rfl, rfl⟩
  · norm_num [jsSortNum, jsInsert, jsCmpNum]
  · norm_num [jsSortNum, jsInsert, jsCmpNum]

/-- Sanity checks of the CPython sort model on well-ordered keys. -/
example : pySortSmall (fun a b : ℕ => decide (a < b)) [3, 1, 2] = [1, 2, 3] := by decide

example : pyListSort (fun a b : ℕ => decide (a < b)) true [3, 1, 2] = [3, 2, 1] := by decide

example : pyListSort (fun a b : ℕ => decide (a < b)) true [1, 2, 2, 3] = [3, 2, 2, 1] := by
  decide

example : pySortSmall (fun a b : ℕ => decide (a < b)) [5, 4, 1, 3, 2] = [1, 2, 3, 4, 5] := by
  decide

/-- The exception-to-exit-status mapping of `main` (lines 1217-1222):
`except KeyboardInterrupt: return 130`, then `except Exception: return 1`. -/
def excToExit : PyErr → ℤ
  | .keyboardInterrupt => 130
  | _ => 1

/-- `main()` (portfolio_notify.py lines 1164-1222) with its effectful steps
abstracted as `Except`-valued inputs: `load_config` (cfgR), the holdings
fetch `load_portfolio_api` (holdingsR), provider construction plus
`fetch_prices` (pricesR), and `get_fx_rate` (fxR; `need_fx` is forced to
True so the rate is always fetched).  The pure pipeline — `build_rows`, the
default jpy-descending sort, `format_report`, `format_report_html` — is the
embedded code itself.  Success falls through to `return 0`; an empty
holdings list returns 2 before any provider work; KeyboardInterrupt maps to
130 and every other exception to 1. -/
def mainModel (cfgR : Except PyErr Unit) (holdingsR : Except PyErr (List Holding))
    (pricesR : Except PyErr (String → Option ℚ)) (fxR : Except PyErr ℚ)
    (prov : Option ProviderM) (sortOrder : String) : ℤ :=
  match cfgR with
  | .error e => excToExit e
  | .ok _ =>
    match holdingsR with
    | .error e => excToExit e
    | .ok holdings =>
      if holdings.isEmpty then 2
      else
        match pricesR with
        | .error e => excToExit e
        | .ok prices =>
          match fxR with
          | .error e => excToExit e
          | .ok fx =>
            match buildRows prov holdings prices (some fx) with
            | .error e => excToExit e
            | .ok (rows, _, _) =>
              match formatReportHtmlNoMonthly (mainSortRows "jpy" sortOrder rows)
                  (some fx) with
              | .error e => excToExit e
              | .ok _ => 0

/-- C5 counterexample: a provider/credential configuration failure (a
ValueError raised by `load_config`) and an unexpected fetch failure (a
RuntimeError raised while fetching prices) both exit with status 1 — the
three failure kinds do NOT each get a distinct status. -/
theorem C5_counterexample_statuses_not_distinct :
    mainModel (.error (.valueError "placeholder api key")) (.ok [])
        (.ok fun _ => none) (.ok 150) none "desc" = 1
    ∧ mainModel (.ok ()) (.ok [⟨"AAPL", 10, some "USD"⟩])
        (.error (.runtimeError "fetch failed")) (.ok 150) none "desc" = 1 := by
  exact ⟨rfl, rfl⟩

theorem one_le_excToExit (e : PyErr) : 1 ≤ excToExit e := by
  cases e <;> norm_num [excToExit]

/-- C5 (amended): the exit statuses actually produced are: 2 for an empty
holdings set; 130 for KeyboardInterrupt (distinct from the generic failure
status); and 1 for everything else — a configuration failure and an
unexpected fetch failure share the generic status 1 rather than getting
distinct codes.  Moreover no run returns the success status 0 at all: with a
non-empty holdings set the pipeline reaches `format_report_html`, which
raises NameError (see C1), and the outermost handler maps that to 1 as
well. -/
theorem C5_amended_exit_codes :
    (∀ (m : String) hR pR fR prov so,
      mainModel (.error (.valueError m)) hR pR fR prov so = 1)
    ∧ (∀ (m : String) fR prov so (hd : Holding) (tl : List Holding),
      mainModel (.ok ()) (.ok (hd :: tl)) (.error (.runtimeError m)) fR prov so = 1)
    ∧ (∀ pR fR prov so, mainModel (.ok ()) (.ok []) pR fR prov so = 2)
    ∧ (∀ hR pR fR prov so,
      mainModel (.error .keyboardInterrupt) hR pR fR prov so = 130)
    ∧ (∀ cR hR pR fR prov so, 1 ≤ mainModel cR hR pR fR prov so)
    ∧ (130 : ℤ) ≠ 1 ∧ (2 : ℤ) ≠ 1 ∧ (2 : ℤ) ≠ 130 := by
  refine ⟨fun m hR pR fR prov so => rfl, fun m fR prov so hd tl => rfl,
    fun pR fR prov so => rfl, fun hR pR fR prov so => rfl,
    ?_, by decide, by decide, by decide⟩
  intro cR hR pR fR prov so
  rcases cR with e | u
  · exact one_le_excToExit e
  · rcases hR with e | holdings
    · exact one_le_excToExit e
    · cases holdings with
      | nil => norm_num [mainModel]
      | cons hd tl =>
        rcases pR with e | prices
        · exact one_le_excToExit e
        · rcases fR with e | fx
          · exact one_le_excToExit e
          · rcases hb : buildRows prov (hd :: tl) prices (some fx) with e | res
            · simp only [mainModel, List.isEmpty_cons, hb]
              exact one_le_excToExit e
            · obtain ⟨rows, tu, tj⟩ := res
              obtain ⟨h1, -, -⟩ := buildRowsAux_ok_eq prov prices (some fx) _ _ _
                (hd :: tl) [] (.fin 0) (.fin 0) rows tu tj hb
              simp only [List.nil_append, List.map_cons] at h1
              have hlen : (mainSortRows "jpy" so rows).length = tl.length + 1 := by
                rw [mainSortRows_length, h1]
                simp
              rcases hs : mainSortRows "jpy" so rows with _ | ⟨r, rest⟩
              · rw [hs] at hlen
                simp at hlen
              · simp only [mainModel, List.isEmpty_cons, hb, hs,
                  formatReportHtmlNoMonthly, htmlRowLoop]
                decide

/-- Lookup in a Python dict built from an association list
(`{k: v for (k, v) in pairs}`): later bindings win, so look up in the
reversed list. -/
def dictGet (pairs : List (String × ℚ)) (k : String) : Option ℚ :=
  List.lookup k pairs.reverse

/-- One row of the monthly dataset: four series aligned to the month axis. -/
structure DSRow where
  symbol : String
  shares : ℤ
  currency : String
  usd_price : List EFloat
  usd_value : List EFloat
  jpy_price : List EFloat
  jpy_value : List EFloat
deriving DecidableEq, Inhabited

/-- The monthly dataset: month labels (taken from the FX series), per-holding
rows, and the FX series aligned to the labels. -/
structure Dataset where
  months : List String
  rows : List DSRow
  fx : List (Option ℚ)
deriving DecidableEq, Inhabited

/-- Python `round()`: round half to even (banker's rounding). -/
def pyRound (q : ℚ) : ℤ :=
  let f : ℤ := ⌊q⌋
  let r : ℚ := q - f
  if r < 1 / 2 then f
  else if 1 / 2 < r then f + 1
  else if f % 2 = 0 then f else f + 1

/-- The `align` helper of `build_monthly_dataset` at a single label: the
holding's raw monthly close for that label, NaN when the label is absent
from the holding's own series. -/
def rawAt (ser : List (String × ℚ)) (lbl : String) : EFloat :=
  match dictGet ser lbl with
  | none => .nan
  | some v => .fin v

/-- USD price of one month (build_monthly_dataset lines 1070-1077): the raw
close for a USD holding; `px / fx` for a non-USD holding when the FX value is
present and non-zero and the raw close is present, NaN otherwise. -/
def usdPriceAt (ccy : String) (fxPairs ser : List (String × ℚ)) (lbl : String) : EFloat :=
  if ccy = "USD" then rawAt ser lbl
  else
    match dictGet fxPairs lbl, rawAt ser lbl with
    | some f, .fin p => if f = 0 then .nan else .fin (p / f)
    | _, _ => .nan

/-- JPY price of one month: `px * fx` for a USD holding when the FX value and
the raw close are present, NaN otherwise; the raw close for a non-USD
holding. -/
def jpyPriceAt (ccy : String) (fxPairs ser : List (String × ℚ)) (lbl : String) : EFloat :=
  if ccy = "USD" then
    match dictGet fxPairs lbl, rawAt ser lbl with
    | some f, .fin p => .fin (p * f)
    | _, _ => .nan
  else rawAt ser lbl

/-- `(p * h.shares) if not (p != p) else nan`. -/
def valueAt (shares : ℚ) : EFloat → EFloat
  | .fin p => .fin (p * shares)
  | .nan => .nan

/-- The per-holding row of `build_monthly_dataset` (lines 1064-1090).  The
source loop over `enumerate(prices_aligned)` with `fx_map.get(months_labels[i])`
is written here as a pointwise map over the labels, which is the same
function of the label at each index. -/
def dsRowFor (fxPairs : List (String × ℚ)) (series : String → List (String × ℚ))
    (h : Holding) : DSRow :=
  let labels := fxPairs.map Prod.fst
  let ccy := pyCcy h
  let usdP := labels.map (usdPriceAt ccy fxPairs (series h.symbol))
  let jpyP := labels.map (jpyPriceAt ccy fxPairs (series h.symbol))
  { symbol := h.symbol
    shares := pyRound h.shares
    currency := ccy
    usd_price := usdP
    usd_value := usdP.map (valueAt h.shares)
    jpy_price := jpyP
    jpy_value := jpyP.map (valueAt h.shares) }

/-- `build_monthly_dataset(provider, holdings, months)` (lines 1044-1097) for
the yfinance provider: the FX pair's monthly series (given as `fxPairs`)
establishes the canonical month axis; each holding's own series (given by
`series`) is re-indexed onto that axis by label; the `fx` list is the
per-label dict lookup. -/
def buildMonthlyDataset (fxPairs : List (String × ℚ))
    (series : String → List (String × ℚ)) (holdings : List Holding) : Dataset :=
  let labels := fxPairs.map Prod.fst
  { months := labels
    rows := holdings.map (dsRowFor fxPairs series)
    fx := labels.map (dictGet fxPairs) }

theorem valueAt_fin (sh : ℚ) (x : EFloat) (q : ℚ) (h : valueAt sh x = .fin q) :
    ∃ p, x = .fin p := by
  cases x with
  | nan => exact absurd h (by simp [valueAt])
  | fin p => exact ⟨p, rfl⟩

/-- A finite converted price requires both the raw close and the FX value to
be present at that label. -/
theorem convertedAt_fin (ccy : String) (fxPairs ser : List (String × ℚ))
    (lbl : String) (q : ℚ)
    (h : (if ccy = "USD" then jpyPriceAt ccy fxPairs ser lbl
          else usdPriceAt ccy fxPairs ser lbl) = .fin q) :
    ∃ p f, dictGet ser lbl = some p ∧ dictGet fxPairs lbl = some f := by
  by_cases hc : ccy = "USD"
  · rw [if_pos hc, jpyPriceAt, if_pos hc] at h
    rcases hf : dictGet fxPairs lbl with _ | f <;> rw [hf] at h <;>
      rcases hr : rawAt ser lbl with _ | p <;> rw [hr] at h <;> simp at h
    rw [rawAt] at hr
    rcases hs : dictGet ser lbl with _ | v <;> rw [hs] at hr
    · exact absurd hr (by simp)
    · exact ⟨v, f, rfl, rfl⟩
  · rw [if_neg hc, usdPriceAt, if_neg hc] at h
    rcases hf : dictGet fxPairs lbl with _ | f <;> rw [hf] at h <;>
      rcases hr : rawAt ser lbl with _ | p <;> rw [hr] at h <;> simp at h
    rw [rawAt] at hr
    rcases hs : dictGet ser lbl with _ | v <;> rw [hs] at hr
    · exact absurd hr (by simp)
    · exact ⟨v, f, rfl, rfl⟩

theorem usdPriceAt_missing (ccy : String) (fxPairs ser : List (String × ℚ))
    (lbl : String) (h : dictGet ser lbl = none) :
    usdPriceAt ccy fxPairs ser lbl = .nan := by
  have hraw : rawAt ser lbl = .nan := by rw [rawAt, h]
  rw [usdPriceAt]
  by_cases hc : ccy = "USD"
  · rw [if_pos hc, hraw]
  · rw [if_neg hc]
    rcases hf : dictGet fxPairs lbl with _ | f <;> rw [hraw]

theorem jpyPriceAt_missing (ccy : String) (fxPairs ser : List (String × ℚ))
    (lbl : String) (h : dictGet ser lbl = none) :
    jpyPriceAt ccy fxPairs ser lbl = .nan := by
  have hraw : rawAt ser lbl = .nan := by rw [rawAt, h]
  rw [jpyPriceAt]
  by_cases hc : ccy = "USD"
  · rw [if_pos hc]
    rcases hf : dictGet fxPairs lbl with _ | f <;> rw [hraw]
  · rw [if_neg hc, hraw]

/-- C7: in the monthly dataset, every holding's four series (USD price, USD
value, JPY price, JPY value) have length exactly `len(months)`; a holding
with no observation for month M has NaN at that index in all four series;
and a converted price or value at month M is finite only when both the
holding's raw close and the FX value at M are present. -/
theorem C7_monthly_alignment (fxPairs : List (String × ℚ))
    (series : String → List (String × ℚ)) (holdings : List Holding)
    (j : ℕ) (dr : DSRow)
    (hj : (buildMonthlyDataset fxPairs series holdings).rows[j]? = some dr) :
    (dr.usd_price.length = (buildMonthlyDataset fxPairs series holdings).months.length
     ∧ dr.usd_value.length = (buildMonthlyDataset fxPairs series holdings).months.length
     ∧ dr.jpy_price.length = (buildMonthlyDataset fxPairs series holdings).months.length
     ∧ dr.jpy_value.length = (buildMonthlyDataset fxPairs series holdings).months.length)
    ∧ (∀ (i : ℕ) (lbl : String),
        (buildMonthlyDataset fxPairs series holdings).months[i]? = some lbl →
        dictGet (series dr.symbol) lbl = none →
        dr.usd_price[i]? = some .nan ∧ dr.usd_value[i]? = some .nan
        ∧ dr.jpy_price[i]? = some .nan ∧ dr.jpy_value[i]? = some .nan)
    ∧ (∀ (i : ℕ) (q : ℚ),
        (if dr.currency = "USD" then dr.jpy_price[i]? else dr.usd_price[i]?)
            = some (.fin q) →
        ∃ lbl p f, (buildMonthlyDataset fxPairs series holdings).months[i]? = some lbl
          ∧ dictGet (series dr.symbol) lbl = some p ∧ dictGet fxPairs lbl = some f)
    ∧ (∀ (i : ℕ) (q : ℚ),
        (if dr.currency = "USD" then dr.jpy_value[i]? else dr.usd_value[i]?)
            = some (.fin q) →
        ∃ lbl p f, (buildMonthlyDataset fxPairs series holdings).months[i]? = some lbl
          ∧ dictGet (series dr.symbol) lbl = some p ∧ dictGet fxPairs lbl = some f) := by
  simp only [buildMonthlyDataset, List.getElem?_map] at hj
  rw [Option.map_eq_some'] at hj
  obtain ⟨h, -, rfl⟩ := hj
  simp only [buildMonthlyDataset, dsRowFor, List.map_map]
  refine ⟨⟨by simp, by simp, by simp, by simp⟩, ?_, ?_, ?_⟩
  · intro i lbl hi hmiss
    simp only [List.getElem?_map] at hi ⊢
    rw [Option.map_eq_some'] at hi
    obtain ⟨pr, hpr, hpr1⟩ := hi
    rw [hpr]
    simp only [Option.map_some', Option.some_inj, Function.comp_apply, hpr1]
    refine ⟨usdPriceAt_missing _ _ _ _ hmiss, ?_, jpyPriceAt_missing _ _ _ _ hmiss, ?_⟩
    · rw [usdPriceAt_missing _ _ _ _ hmiss]; rfl
    · rw [jpyPriceAt_missing _ _ _ _ hmiss]; rfl
  · intro i q hq
    by_cases hc : pyCcy h = "USD" <;>
      [rw [if_pos hc] at hq; rw [if_neg hc] at hq] <;>
      simp only [List.getElem?_map] at hq <;>
      rw [Option.map_eq_some'] at hq <;>
      obtain ⟨pr, hpr, hval⟩ := hq <;>
      simp only [Function.comp_apply] at hval
    · obtain ⟨p, f, hp, hf⟩ := convertedAt_fin (pyCcy h) fxPairs (series h.symbol) pr.1 q
        (by rw [if_pos hc]; exact hval)
      exact ⟨pr.1, p, f, by simp [List.getElem?_map, hpr], hp, hf⟩
    · obtain ⟨p, f, hp, hf⟩ := convertedAt_fin (pyCcy h) fxPairs (series h.symbol) pr.1 q
        (by rw [if_neg hc]; exact hval)
      exact ⟨pr.1, p, f, by simp [List.getElem?_map, hpr], hp, hf⟩
  · intro i q hq
    by_cases hc : pyCcy h = "USD" <;>
      [rw [if_pos hc] at hq; rw [if_neg hc] at hq] <;>
      simp only [List.getElem?_map] at hq <;>
      rw [Option.map_eq_some'] at hq <;>
      obtain ⟨pr, hpr, hval⟩ := hq <;>
      simp only [Function.comp_apply] at hval <;>
      obtain ⟨p0, hp0⟩ := valueAt_fin h.shares _ q hval
    · obtain ⟨p, f, hp, hf⟩ := convertedAt_fin (pyCcy h) fxPairs (series h.symbol) pr.1 p0
        (by rw [if_pos hc]; exact hp0)
      exact ⟨pr.1, p, f, by simp [List.getElem?_map, hpr], hp, hf⟩
    · obtain ⟨p, f, hp, hf⟩ := convertedAt_fin (pyCcy h) fxPairs (series h.symbol) pr.1 p0
        (by rw [if_neg hc]; exact hp0)
      exact ⟨pr.1, p, f, by simp [List.getElem?_map, hpr], hp, hf⟩

def c7Fx : List (String × ℚ) := [("2024-01", 150), ("2024-02", 151)]

def c7Series : String → List (String × ℚ) :=
  fun s => if s = "AAPL" then [("2024-02", 160)] else []

def c7Hold : Holding := ⟨"AAPL", 10, some "USD"⟩

def c7Row : DSRow := dsRowFor c7Fx c7Series c7Hold

theorem C7_monthly_alignment_witness :
    c7Row.usd_price.length = 2 ∧ c7Row.usd_price[0]? = some .nan
      ∧ c7Row.jpy_value[0]? = some .nan := by
  have h := C7_monthly_alignment c7Fx c7Series [c7Hold] 0 c7Row rfl
  have hmiss := h.2.1 0 "2024-01" rfl (by decide)
  exact ⟨by rw [h.1.1]; rfl, hmiss.1, hmiss.2.2.2⟩

/-- The fixed CSV header emitted by `dataset_to_csv` (line 1106). -/
def csvHeader : String :=
  "month,symbol,shares,currency,usd_price,usd_value,jpy_price,jpy_value,fx_rate"

/-- The value carried by a six-decimal fixed-point CSV field: the input
rounded (half to even, as float formatting does) at the sixth decimal.
Parsing the rendered `%.6f` string back recovers exactly this rational. -/
def round6 (q : ℚ) : ℚ := (pyRound (q * 1000000) : ℚ) / 1000000

/-- One CSV data line of `dataset_to_csv`: the fixed column order
month, symbol, shares, currency, usd_price, usd_value, jpy_price, jpy_value,
fx_rate.  A numeric field is `none` when it renders as the empty string
(NaN, missing index, or missing FX value) and `some (round6 v)` when it
renders as the six-decimal fixed-point text of `v`. -/
structure CsvLine where
  month : String
  symbol : String
  shares : ℤ
  currency : String
  usd_price : Option ℚ
  usd_value : Option ℚ
  jpy_price : Option ℚ
  jpy_value : Option ℚ
  fx_rate : Option ℚ
deriving DecidableEq, Inhabited

/-- The `_get(lst, idx)` helper of `dataset_to_csv` (lines 1119-1124): empty
on IndexError or NaN, else the six-decimal rendering of the value. -/
def csvGet (lst : List EFloat) (i : ℕ) : Option ℚ :=
  match lst[i]? with
  | some (.fin q) => some (round6 q)
  | _ => none

/-- One (month, holding) data line (lines 1109-1132); the FX cell uses
`fx_list[i] if i < len(fx_list) else None` and renders empty for None. -/
def csvLineFor (fxl : List (Option ℚ)) (i : ℕ) (m : String) (r : DSRow) : CsvLine :=
  { month := m
    symbol := r.symbol
    shares := r.shares
    currency := r.currency
    usd_price := csvGet r.usd_price i
    usd_value := csvGet r.usd_value i
    jpy_price := csvGet r.jpy_price i
    jpy_value := csvGet r.jpy_value i
    fx_rate := (fxl[i]?.join).map round6 }

/-- The data lines of `dataset_to_csv`: outer loop over months (with index),
inner loop over holdings rows. -/
def csvDataLines (ds : Dataset) : List CsvLine :=
  ds.months.enum.flatMap fun im => ds.rows.map (csvLineFor ds.fx im.1 im.2)

theorem length_flatMap_const (l : List α) (f : α → List β) (H : ℕ)
    (hH : ∀ a, (f a).length = H) : (l.flatMap f).length = l.length * H := by
  induction l with
  | nil => simp
  | cons a tl ih =>
    simp only [List.flatMap_cons, List.length_append, ih, hH, List.length_cons]
    have : (tl.length + 1) * H = tl.length * H + H := Nat.succ_mul tl.length H
    omega

theorem getElem?_flatMap_const (l : List α) (f : α → List β) (H : ℕ)
    (hH : ∀ a, (f a).length = H) (i j : ℕ) (hj : j < H) :
    (l.flatMap f)[i * H + j]? = l[i]?.bind fun a => (f a)[j]? := by
  induction l generalizing i with
  | nil => simp
  | cons a tl ih =>
    cases i with
    | zero =>
      simp only [List.flatMap_cons, Nat.zero_mul, Nat.zero_add]
      rw [List.getElem?_append_left (by rw [hH]; exact hj)]
      simp
    | succ i =>
      simp only [List.flatMap_cons]
      have hmul : (i + 1) * H = i * H + H := Nat.succ_mul i H
      rw [List.getElem?_append_right (by rw [hH]; omega)]
      rw [hH]
      have hidx : (i + 1) * H + j - H = i * H + j := by omega
      rw [hidx, ih]
      simp

/-- C8: the CSV serialization has the fixed header, exactly M x H data lines
(one per (month, holding) pair, months-major, in order), and each numeric
field carries exactly the six-decimal rounding of the original series value
(`none`, rendered as the empty string, for NaN or missing values) — so
parsing the numeric fields back yields the originals rounded to six
decimals. -/
theorem C8_csv_serialization (ds : Dataset) :
    csvHeader = "month,symbol,shares,currency,usd_price,usd_value,jpy_price,jpy_value,fx_rate"
    ∧ (csvDataLines ds).length = ds.months.length * ds.rows.length
    ∧ (∀ (i j : ℕ) (m : String) (r : DSRow),
        ds.months[i]? = some m → ds.rows[j]? = some r →
        (csvDataLines ds)[i * ds.rows.length + j]?
          = some (csvLineFor ds.fx i m r))
    ∧ (∀ (lst : List EFloat) (i : ℕ) (q : ℚ),
        lst[i]? = some (.fin q) → csvGet lst i = some (round6 q))
    ∧ (∀ (lst : List EFloat) (i : ℕ),
        lst[i]? = some .nan ∨ lst[i]? = none → csvGet lst i = none) := by
  refine ⟨rfl, ?_, ?_, ?_, ?_⟩
  · rw [csvDataLines, length_flatMap_const _ _ ds.rows.length
      (fun a => List.length_map _ _), List.enum_length]
  · intro i j m r hi hj
    have hjlen : j < ds.rows.length := by
      rcases List.getElem?_eq_some.mp hj with ⟨hlt, -⟩
      exact hlt
    rw [csvDataLines, getElem?_flatMap_const _ _ ds.rows.length
      (fun a => List.length_map _ _) i j hjlen]
    rw [List.getElem?_enum]
    rw [hi]
    simp only [Option.map_some', Option.bind_some, List.getElem?_map, hj]
    rfl
  · intro lst i q hq
    rw [csvGet, hq]
  · intro lst i h
    rcases h with h | h <;> rw [csvGet, h]

def c8Fx : List (String × ℚ) := [("2024-01", 150), ("2024-02", 150)]

def c8Series : String → List (String × ℚ) :=
  fun s =>
    if s = "AAPL" then [("2024-01", 100), ("2024-02", 110)]
    else if s = "MSFT" then [("2024-02", 1/3)] else []

def c8Holds : List Holding := [⟨"AAPL", 1, some "USD"⟩, ⟨"MSFT", 2, some "USD"⟩]

def c8Ds : Dataset := buildMonthlyDataset c8Fx c8Series c8Holds

def c8RMsft : DSRow := dsRowFor c8Fx c8Series ⟨"MSFT", 2, some "USD"⟩

theorem C8_csv_serialization_witness :
    (csvDataLines c8Ds).length = 4
    ∧ ((csvDataLines c8Ds)[3]?.map CsvLine.month) = some "2024-02"
    ∧ ((csvDataLines c8Ds)[3]?.map CsvLine.usd_price) = some (some (333333 / 1000000))
    ∧ ((csvDataLines c8Ds)[1]?.map CsvLine.usd_price) = some none := by
  have h := C8_csv_serialization c8Ds
  have hr1 : c8Ds.rows[1]? = some c8RMsft := rfl
  have hline3 := h.2.2.1 1 1 "2024-02" c8RMsft rfl hr1
  have hline1 := h.2.2.1 0 1 "2024-01" c8RMsft rfl hr1
  have hval : c8RMsft.usd_price[1]? = some (.fin (1/3)) := rfl
  have hnan : c8RMsft.usd_price[0]? = some .nan := rfl
  have hcell3 := h.2.2.2.1 c8RMsft.usd_price 1 (1/3) hval
  have hcell1 := h.2.2.2.2 c8RMsft.usd_price 0 (Or.inl hnan)
  refine ⟨?_, ?_, ?_, ?_⟩
  · rw [h.2.1]; rfl
  · rw [show (3 : ℕ) = 1 * c8Ds.rows.length + 1 from rfl, hline3]; rfl
  · rw [show (3 : ℕ) = 1 * c8Ds.rows.length + 1 from rfl, hline3]
    simp only [Option.map_some', csvLineFor, hcell3, Option.some_inj]
    rw [round6]
    norm_num [pyRound]
  · rw [show (1 : ℕ) = 0 * c8Ds.rows.length + 1 from rfl, hline1]
    simp only [Option.map_some', csvLineFor, hcell1]

/-- Membership test of a timestamp in the rolling window `(x, x + per]`. -/
def inWin (per x r : ℚ) : Bool := decide (x < r) && decide (r ≤ x + per)

/-- Number of recorded timestamps inside the rolling window `(x, x + per]`. -/
def wcount (per x : ℚ) (l : List ℚ) : ℕ := l.countP (inWin per x)

/-- The retention test of `acquire`: `now - t < per_seconds`. -/
def keepB (per now u : ℚ) : Bool := decide (now - u < per)

/-- `self._times = [t for t in self._times if now - t < self.per_seconds]`. -/
def prune (per now : ℚ) (ts : List ℚ) : List ℚ := ts.filter (keepB per now)

/-- The post-sleep clock of `acquire` when the window is full: the call
sleeps `per - (now - t0) + 0.05` seconds if that is positive (`t0` being the
oldest retained timestamp), and the deterministic clock then reads exactly
`now + sleep_for`. -/
def acquireWake (per t0 now : ℚ) : ℚ :=
  if 0 < per - (now - t0) + 1 / 20 then now + (per - (now - t0) + 1 / 20) else now

/-- `RateLimiter.acquire` (portfolio_notify.py lines 95-106) with an exact
deterministic clock: prune timestamps older than the window; if at least
`limit` remain, sleep until the oldest retained timestamp exits the window
(plus the 0.05 margin), re-prune at the new time and record it; otherwise
record `now`.  Returns the new `_times` list and the recorded timestamp. -/
def acquire (limit : ℕ) (per : ℚ) (ts : List ℚ) (now : ℚ) : List ℚ × ℚ :=
  if limit ≤ (prune per now ts).length then
    (prune per (acquireWake per (prune per now ts).headI now) (prune per now ts)
        ++ [acquireWake per (prune per now ts).headI now],
     acquireWake per (prune per now ts).headI now)
  else (prune per now ts ++ [now], now)

/-- A sequence of `acquire()` calls issued from one logical thread: `ds` are
the nonnegative delays between the completion of one call (its recorded
timestamp) and the start of the next.  Returns the recorded timestamps in
issuance order. -/
def runAcq (limit : ℕ) (per : ℚ) : List ℚ → List ℚ → ℚ → List ℚ
  | [], _, _ => []
  | d :: ds, ts, t =>
    let now := t + d
    let res := acquire limit per ts now
    res.2 :: runAcq limit per ds res.1 res.2

/-- Re-pruning at a later time collapses to a single prune. -/
theorem prune_of_prune (per t now : ℚ) (h : t ≤ now) (R : List ℚ) :
    prune per now (R.filter (keepB per t)) = R.filter (keepB per now) := by
  induction R with
  | nil => rfl
  | cons a R ih =>
    by_cases ht : keepB per t a = true
    · rw [List.filter_cons_of_pos ht]
      by_cases hn : keepB per now a = true
      · rw [prune, List.filter_cons_of_pos hn, ← prune, ih, List.filter_cons_of_pos hn]
      · simp only [Bool.not_eq_true] at hn
        rw [prune, List.filter_cons_of_neg (by simp [hn]), ← prune, ih,
          List.filter_cons_of_neg (by simp [hn])]
    · simp only [Bool.not_eq_true] at ht
      have hn : keepB per now a = false := by
        rw [keepB, decide_eq_false_iff_not] at ht ⊢
        intro hlt
        exact ht (by linarith)
      rw [List.filter_cons_of_neg (by simp [ht]), ih,
        List.filter_cons_of_neg (by simp [hn])]

theorem wcount_append (per x : ℚ) (l₁ l₂ : List ℚ) :
    wcount per x (l₁ ++ l₂) = wcount per x l₁ + wcount per x l₂ :=
  List.countP_append _ _ _

theorem wcount_singleton (per x r : ℚ) : wcount per x [r] ≤ 1 := by
  cases hc : inWin per x r <;> simp [wcount, List.countP_cons, hc]

/-- Step invariant of `acquire`: assuming all previously recorded timestamps
are at most `t`, the stored timestamp list is exactly the records still in
window, and every rolling window holds at most `limit` records, then after
one `acquire` at time `now ≥ t` the same holds with the new record appended,
the clock does not move backwards, and the window bound is preserved. -/
theorem acquire_spec (limit : ℕ) (per : ℚ) (hl : 0 < limit) (hp : 0 < per)
    (R : List ℚ) (t now : ℚ) (hnow : t ≤ now)
    (hle : ∀ r ∈ R, r ≤ t)
    (hinv : ∀ x, wcount per x R ≤ limit)
    (ts2 : List ℚ) (rec : ℚ)
    (heq : acquire limit per (R.filter (keepB per t)) now = (ts2, rec)) :
    now ≤ rec ∧ ts2 = (R ++ [rec]).filter (keepB per rec)
    ∧ (∀ r ∈ R, r ≤ rec) ∧ (∀ x, wcount per x (R ++ [rec]) ≤ limit) := by
  rw [acquire] at heq
  have hts1 : prune per now (R.filter (keepB per t)) = R.filter (keepB per now) :=
    prune_of_prune per t now hnow R
  rw [hts1] at heq
  have hkeep_self : ∀ u : ℚ, keepB per u u = true := by
    intro u
    rw [keepB, decide_eq_true_eq]
    linarith
  have hlen_le : (R.filter (keepB per now)).length ≤ limit := by
    rw [← List.countP_eq_length_filter]
    calc R.countP (keepB per now)
        ≤ R.countP (inWin per (now - per)) := by
          refine List.countP_mono_left fun r hr hk => ?_
          rw [keepB, decide_eq_true_eq] at hk
          rw [inWin, Bool.and_eq_true, decide_eq_true_eq, decide_eq_true_eq]
          have := hle r hr
          exact ⟨by linarith, by linarith⟩
      _ ≤ limit := hinv (now - per)
  by_cases hfull : limit ≤ (R.filter (keepB per now)).length
  · -- window already full: sleep until the oldest retained timestamp exits
    rw [if_pos hfull] at heq
    have hne : R.filter (keepB per now) ≠ [] := by
      intro hnil
      rw [hnil] at hfull
      simp at hfull
      omega
    obtain ⟨t0, tl, htl⟩ := List.exists_cons_of_ne_nil hne
    have ht0mem : t0 ∈ R.filter (keepB per now) := by
      rw [htl]
      exact List.mem_cons_self _ _
    have ht0R := List.mem_filter.mp ht0mem
    have ht0win : now - t0 < per := by
      have := ht0R.2
      rwa [keepB, decide_eq_true_eq] at this
    have hhead : (R.filter (keepB per now)).headI = t0 := by rw [htl]; rfl
    have hsleep : 0 < per - (now - t0) + 1 / 20 := by linarith
    have hwake : acquireWake per t0 now = now + (per - (now - t0) + 1 / 20) := by
      rw [acquireWake, if_pos hsleep]
    rw [hhead, hwake] at heq
    set now2 := now + (per - (now - t0) + 1 / 20) with hnow2
    have hnow2' : now ≤ now2 := by rw [hnow2]; linarith
    have hprune2 : prune per now2 (R.filter (keepB per now)) = R.filter (keepB per now2) :=
      prune_of_prune per now now2 hnow2' R
    rw [hprune2, Prod.mk.injEq] at heq
    obtain ⟨rfl, rfl⟩ := heq
    refine ⟨hnow2', ?_, ?_, ?_⟩
    · rw [List.filter_append]
      simp [hkeep_self now2]
    · intro r hr
      have := hle r hr
      linarith
    · intro x
      rw [wcount_append]
      by_cases hwin : inWin per x now2 = true
      · have hx : now2 - per ≤ x := by
          rw [inWin, Bool.and_eq_true, decide_eq_true_eq, decide_eq_true_eq] at hwin
          linarith [hwin.2]
        have hbound : wcount per x R ≤ limit - 1 := by
          have hmono : R.countP (inWin per x)
              ≤ R.countP (fun u => decide (t0 + 1 / 20 < u) && keepB per now u) := by
            refine List.countP_mono_left fun r hr hw => ?_
            rw [inWin, Bool.and_eq_true, decide_eq_true_eq, decide_eq_true_eq] at hw
            have hnow2eq : now2 = t0 + per + 1 / 20 := by rw [hnow2]; ring
            have h20 : t0 + 1 / 20 < r := by
              have := hw.1
              rw [hnow2eq] at hx
              linarith
            rw [Bool.and_eq_true, decide_eq_true_eq, keepB, decide_eq_true_eq]
            exact ⟨h20, by linarith⟩
          have hfilter : R.countP (fun u => decide (t0 + 1 / 20 < u) && keepB per now u)
              = (R.filter (keepB per now)).countP (fun u => decide (t0 + 1 / 20 < u)) := by
            rw [List.countP_filter]
          have hcons : (R.filter (keepB per now)).countP (fun u => decide (t0 + 1 / 20 < u))
              = tl.countP (fun u => decide (t0 + 1 / 20 < u)) := by
            rw [htl, List.countP_cons]
            have hfalse : (decide (t0 + 1 / 20 < t0) : Bool) = false := by
              rw [decide_eq_false_iff_not]
              intro hcontra
              linarith
            rw [hfalse]
            simp
          have htl_len : tl.length + 1 = (R.filter (keepB per now)).length := by
            rw [htl]
            rfl
          have hlim : (R.filter (keepB per now)).length = limit :=
            le_antisymm hlen_le hfull
          have hchain : wcount per x R ≤ tl.length := by
            rw [wcount]
            calc R.countP (inWin per x)
                ≤ _ := hmono
              _ = tl.countP (fun u => decide (t0 + 1 / 20 < u)) := by rw [hfilter, hcons]
              _ ≤ tl.length := List.countP_le_length _
          omega
        have hsum := add_le_add hbound (wcount_singleton per x now2)
        omega
      · simp only [Bool.not_eq_true] at hwin
        have hzero : wcount per x [now2] = 0 := by
          rw [wcount, List.countP_cons, hwin]
          simp
        rw [hzero]
        simpa using hinv x
  · -- room in the window: record immediately
    rw [if_neg hfull, Prod.mk.injEq] at heq
    obtain ⟨rfl, rfl⟩ := heq
    refine ⟨le_refl now, ?_, ?_, ?_⟩
    · rw [List.filter_append]
      simp [hkeep_self now]
    · intro r hr
      have := hle r hr
      linarith
    · intro x
      rw [wcount_append]
      by_cases hwin : inWin per x now = true
      · have hbound : wcount per x R ≤ (R.filter (keepB per now)).length := by
          rw [← List.countP_eq_length_filter]
          refine List.countP_mono_left fun r hr hw => ?_
          rw [inWin, Bool.and_eq_true, decide_eq_true_eq, decide_eq_true_eq] at hw
          rw [inWin, Bool.and_eq_true, decide_eq_true_eq, decide_eq_true_eq] at hwin
          rw [keepB, decide_eq_true_eq]
          have := hle r hr
          have hx : now - per ≤ x := by linarith [hwin.2]
          linarith [hw.1]
        have hlt : (R.filter (keepB per now)).length < limit := by omega
        have hsum := add_le_add hbound (wcount_singleton per x now)
        omega
      · simp only [Bool.not_eq_true] at hwin
        have hzero : wcount per x [now] = 0 := by
          rw [wcount, List.countP_cons, hwin]
          simp
        rw [hzero]
        simpa using hinv x

/-- Invariant propagation over an entire call sequence: starting from a state
whose stored timestamps are exactly the in-window records, every rolling
window continues to hold at most `limit` records including all timestamps
recorded by the remaining calls. -/
theorem runAcq_invariant (limit : ℕ) (per : ℚ) (hl : 0 < limit) (hp : 0 < per) :
    ∀ (ds R : List ℚ) (t : ℚ),
      (∀ d ∈ ds, 0 ≤ d) →
      (∀ r ∈ R, r ≤ t) →
      (∀ x, wcount per x R ≤ limit) →
      ∀ x, wcount per x (R ++ runAcq limit per ds (R.filter (keepB per t)) t) ≤ limit := by
  intro ds
  induction ds with
  | nil =>
    intro R t hd hle hinv x
    simpa [runAcq] using hinv x
  | cons d ds ih =>
    intro R t hd hle hinv x
    rcases hacq : acquire limit per (R.filter (keepB per t)) (t + d) with ⟨ts2, rec⟩
    have hd0 : 0 ≤ d := hd d (List.mem_cons_self _ _)
    obtain ⟨hrec, hts2, hle2, hinv2⟩ := acquire_spec limit per hl hp R t (t + d)
      (by linarith) hle hinv ts2 rec hacq
    have hstep : runAcq limit per (d :: ds) (R.filter (keepB per t)) t
        = rec :: runAcq limit per ds ts2 rec := by
      rw [runAcq]
      simp only [hacq]
    rw [hstep]
    have hassoc : R ++ rec :: runAcq limit per ds ts2 rec
        = (R ++ [rec]) ++ runAcq limit per ds ts2 rec := by
      simp
    rw [hassoc, hts2]
    refine ih (R ++ [rec]) rec (fun e he => hd e (List.mem_cons_of_mem _ he)) ?_ hinv2 x
    intro r hr
    rcases List.mem_append.mp hr with hr | hr
    · exact hle2 r hr
    · rw [List.mem_singleton.mp hr]

/-- C6: for every sequence of `acquire()` calls issued from a single logical
thread (nonnegative delays between a call's completion and the next call's
start), at every moment no more than `limit` recorded timestamps fall within
any rolling window of `per_seconds`: whenever `limit` timestamps are already
inside the window, `acquire` sleeps until the oldest retained timestamp
exits the window before recording the new call. -/
theorem C6_rate_limiter_window (limit : ℕ) (per : ℚ) (ds : List ℚ) (t0 x : ℚ)
    (hl : 0 < limit) (hp : 0 < per) (hd : ∀ d ∈ ds, 0 ≤ d) :
    wcount per x (runAcq limit per ds [] t0) ≤ limit := by
  have h := runAcq_invariant limit per hl hp ds [] t0 hd
    (by intro r hr; simp at hr) (by intro y; simp [wcount]) x
  simpa using h

theorem C6_rate_limiter_window_witness :
    0 < 2 ∧ 0 < (1 : ℚ) ∧ (∀ d ∈ [(0 : ℚ), 0, 0], 0 ≤ d)
    ∧ runAcq 2 1 [(0 : ℚ), 0, 0] [] 0 = [0, 0, 21 / 20]
    ∧ wcount 1 (-1 / 2) (runAcq 2 1 [(0 : ℚ), 0, 0] [] 0) ≤ 2 := by
  refine ⟨by norm_num, by norm_num, by intro d hd; simp at hd; simp [hd], ?_,
    C6_rate_limiter_window 2 1 [0, 0, 0] 0 (-1 / 2) (by norm_num) (by norm_num)
      (by intro d hd; simp at hd; simp [hd])⟩
  norm_num [runAcq, acquire, acquireWake, prune, keepB, List.headI]
